import Mathlib

/-!
Shallow embedding of `src/src/EdgeConProblem/EdgeConReduction.c`.

The C file builds a Z3 Boolean formula out of three families of named
Boolean variables and decodes a satisfying model back into translator
edges on the graph.  We embed:

* the three variable families (`x_[(n1,n2),i]`, `p_[j1,j2]`, `l_[j,h]`)
  as an inductive type `Var` (the string name is determined by, and
  determines, the constructor and its arguments, so variable identity is
  exactly `Var` equality);
* Z3 formulas as an inductive `Formula` with `Z3_mk_and` / `Z3_mk_or`
  taking the clause list exactly as the C code passes its clause arrays,
  and `Formula.eval` giving the usual Boolean semantics of a model
  (a total assignment `Var → Bool`);
* the graph and component queries, which are external to this file
  (`isEdge`, `isNodeInComponent`, `numNodes`, `numEdges`,
  `getNumComponents`), as fields of a structure `EdgeConGraph`;
* each `build_phi_*` function as a Lean function producing the same
  formula, the C loops becoming `List.range` / `List.range'` binds in
  the same iteration order;
* the model decoder `getTranslatorSetFromModel` as a function producing
  the trace of external calls (`addTranslator` / `computesHomogeneousComponents`)
  it performs, in order.

All loop indices in the C file are non-negative `int`s bounded by the
graph's counts, so they are embedded as `Nat`.
-/

/-- A Boolean variable of the reduction, identified by its name string:
`X n1 n2 i` is `x_[(n1,n2),i]`, `P child parent` is `p_[child,parent]`,
`L component level` is `l_[component,level]`. -/
inductive Var where
  | X (n1 n2 i : Nat)
  | P (child parent : Nat)
  | L (component level : Nat)
deriving DecidableEq, Repr

/-- Z3 Boolean expression trees as the C code builds them. -/
inductive Formula where
  | var : Var → Formula
  | fls : Formula
  | tru : Formula
  | not : Formula → Formula
  | and : Formula → Formula → Formula
  | or : Formula → Formula → Formula
deriving Repr

/-- `Z3_mk_and(ctx, n, array)`: conjunction of a clause list (empty list
is true, as for Z3). -/
def Z3_mk_and (l : List Formula) : Formula := l.foldr Formula.and Formula.tru

/-- `Z3_mk_or(ctx, n, array)`: disjunction of a clause list (empty list
is false, as for Z3). -/
def Z3_mk_or (l : List Formula) : Formula := l.foldr Formula.or Formula.fls

/-- `Z3_mk_false(ctx)`. -/
def Z3_mk_false : Formula := Formula.fls

/-- Truth value of a formula under a model (total assignment of the
variables). -/
def Formula.eval (m : Var → Bool) : Formula → Bool
  | .var v => m v
  | .fls => false
  | .tru => true
  | .not f => !(f.eval m)
  | .and f g => f.eval m && g.eval m
  | .or f g => f.eval m || g.eval m

/-- All variable leaves occurring in a formula: exactly the variables
the builders create through the `getVariable*` constructors. -/
def Formula.varsOf : Formula → List Var
  | .var v => [v]
  | .fls => []
  | .tru => []
  | .not f => f.varsOf
  | .and f g => f.varsOf ++ g.varsOf
  | .or f g => f.varsOf ++ g.varsOf

/-- The external `EdgeConGraph` together with its `Graph`, restricted to
the query interface the reduction uses: `getGraph(graph).numNodes`,
`getGraph(graph).numEdges`, `isEdge`, `getNumComponents`,
`isNodeInComponent`. -/
structure EdgeConGraph where
  numNodes : Nat
  numEdges : Nat
  isEdge : Nat → Nat → Bool
  numComponents : Nat
  isNodeInComponent : Nat → Nat → Bool

/-- `g_context_s`: stores all needed data used to build formulas. -/
structure g_context_s where
  n : Nat
  m : Nat
  N : Nat
  C_H : Nat
  k : Nat
  graph : EdgeConGraph

/-- `init_g_context`: `n`, `m` from the graph, `C_H = getNumComponents`,
`N = C_H - 1`, `k = cost`. -/
def init_g_context (graph : EdgeConGraph) (cost : Nat) : g_context_s :=
  { n := graph.numNodes
    m := graph.numEdges
    N := graph.numComponents - 1
    C_H := graph.numComponents
    k := cost
    graph := graph }

/-- `getVariableIsIthTranslator`: canonicalizes the endpoint pair
(smaller node id printed first) before forming the name. -/
def getVariableIsIthTranslator (node1 node2 number : Nat) : Var :=
  if node1 < node2 then Var.X node1 node2 number else Var.X node2 node1 number

/-- `getVariableParent`: name `p_[child,parent]`, no canonicalization. -/
def getVariableParent (child parent : Nat) : Var := Var.P child parent

/-- `getVariableLevelInSpanningTree(ctx, level, component)`: name
`l_[component,level]`, no canonicalization. -/
def getVariableLevelInSpanningTree (level component : Nat) : Var :=
  Var.L component level

/-- The `X_(n1, n2, i)` macro. -/
def X_ (n1 n2 i : Nat) : Var := getVariableIsIthTranslator n1 n2 i

/-- The `P_(j1, j2)` macro. -/
def P_ (j1 j2 : Nat) : Var := getVariableParent j1 j2

/-- The `L_(j, h)` macro: note the argument swap, it expands to
`getVariableLevelInSpanningTree(ctx, h, j)`. -/
def L_ (j h : Nat) : Var := getVariableLevelInSpanningTree h j

/-- The double loop `for e1 < n, for e2 in (e1, n), if isEdge(e1,e2)`
shared by φ2.1, φ2.2, φ6 and the decoder, as the list of edge pairs it
visits, in visit order. -/
def edgeList (g : EdgeConGraph) : List (Nat × Nat) :=
  (List.range g.numNodes).flatMap fun u =>
    (List.range' (u + 1) (g.numNodes - (u + 1))).flatMap fun v =>
      if g.isEdge u v then [(u, v)] else []

/-- Clause list of `build_phi_2_1`: for every translator identity `i`
and ordered pair of distinct existing edges, `¬X(e,i) ∨ ¬X(f,i)`. -/
def phi_2_1_clauses (ctx : g_context_s) : List Formula :=
  (List.range ctx.N).flatMap fun i =>
    (edgeList ctx.graph).flatMap fun e =>
      ((edgeList ctx.graph).filter (fun f => f ≠ e)).map fun f =>
        Z3_mk_or [Formula.not (Formula.var (X_ e.1 e.2 i)),
                  Formula.not (Formula.var (X_ f.1 f.2 i))]

/-- `build_phi_2_1`. -/
def build_phi_2_1 (ctx : g_context_s) : Formula := Z3_mk_and (phi_2_1_clauses ctx)

/-- Clause list of `build_phi_2_2`: for every existing edge and every
`i < j < N`, `¬X(e,i) ∨ ¬X(e,j)`. -/
def phi_2_2_clauses (ctx : g_context_s) : List Formula :=
  (edgeList ctx.graph).flatMap fun e =>
    (List.range ctx.N).flatMap fun i =>
      (List.range' (i + 1) (ctx.N - (i + 1))).map fun j =>
        Z3_mk_or [Formula.not (Formula.var (X_ e.1 e.2 i)),
                  Formula.not (Formula.var (X_ e.1 e.2 j))]

/-- `build_phi_2_2`. -/
def build_phi_2_2 (ctx : g_context_s) : Formula := Z3_mk_and (phi_2_2_clauses ctx)

/-- `build_phi_2`. -/
def build_phi_2 (ctx : g_context_s) : Formula :=
  Z3_mk_and [build_phi_2_1 ctx, build_phi_2_2 ctx]

/-- Clause list of `build_phi_3_1`: for every `j ∈ [1, C_H)`, the
disjunction over `j1 ≠ j` of `P(j, j1)`. -/
def phi_3_1_clauses (ctx : g_context_s) : List Formula :=
  (List.range' 1 (ctx.C_H - 1)).map fun j =>
    Z3_mk_or (((List.range ctx.C_H).filter (fun j1 => j ≠ j1)).map fun j1 =>
      Formula.var (P_ j j1))

/-- `build_phi_3_1`. -/
def build_phi_3_1 (ctx : g_context_s) : Formula := Z3_mk_and (phi_3_1_clauses ctx)

/-- Clause list of `build_phi_3_2`: for every `j ∈ [1, C_H)` and
`j1 < j2` both distinct from `j` (with `j1 < C_H - 1`),
`¬P(j, j1) ∨ ¬P(j, j2)`. -/
def phi_3_2_clauses (ctx : g_context_s) : List Formula :=
  (List.range' 1 (ctx.C_H - 1)).flatMap fun j =>
    (List.range (ctx.C_H - 1)).flatMap fun j1 =>
      if j1 ≠ j then
        (List.range' (j1 + 1) (ctx.C_H - (j1 + 1))).flatMap fun j2 =>
          if j2 ≠ j then
            [Z3_mk_or [Formula.not (Formula.var (P_ j j1)),
                       Formula.not (Formula.var (P_ j j2))]]
          else []
      else []

/-- `build_phi_3_2`. -/
def build_phi_3_2 (ctx : g_context_s) : Formula := Z3_mk_and (phi_3_2_clauses ctx)

/-- `build_phi_3`. -/
def build_phi_3 (ctx : g_context_s) : Formula :=
  Z3_mk_and [build_phi_3_1 ctx, build_phi_3_2 ctx]

/-- Clause list of `build_phi_4_1`: for every component `i`, the
disjunction over `n ∈ [0, N)` of `L_(i, n)`. -/
def phi_4_1_clauses (ctx : g_context_s) : List Formula :=
  (List.range ctx.C_H).map fun i =>
    Z3_mk_or ((List.range ctx.N).map fun n => Formula.var (L_ i n))

/-- `build_phi_4_1`. -/
def build_phi_4_1 (ctx : g_context_s) : Formula := Z3_mk_and (phi_4_1_clauses ctx)

/-- Clause list of `build_phi_4_2`: for every component `i` and levels
`n < n' < N`, `¬L_(i, n) ∨ ¬L_(i, n')`. -/
def phi_4_2_clauses (ctx : g_context_s) : List Formula :=
  (List.range ctx.C_H).flatMap fun i =>
    (List.range ctx.N).flatMap fun n =>
      (List.range' (n + 1) (ctx.N - (n + 1))).map fun n_prime =>
        Z3_mk_or [Formula.not (Formula.var (L_ i n)),
                  Formula.not (Formula.var (L_ i n_prime))]

/-- `build_phi_4_2`. -/
def build_phi_4_2 (ctx : g_context_s) : Formula := Z3_mk_and (phi_4_2_clauses ctx)

/-- `build_phi_4`. -/
def build_phi_4 (ctx : g_context_s) : Formula :=
  Z3_mk_and [build_phi_4_1 ctx, build_phi_4_2 ctx]

/-- Disjunct list of `build_phi_5`: for every `i ∈ [0, C_H)` and
`n ∈ [k, N)`, the variable `L_(n, i)` (exactly as the source writes it:
the first macro argument is `n`, the second is `i`). -/
def phi_5_disjuncts (ctx : g_context_s) : List Formula :=
  (List.range ctx.C_H).flatMap fun i =>
    (List.range' ctx.k (ctx.N - ctx.k)).map fun n =>
      Formula.var (L_ n i)

/-- `build_phi_5`. -/
def build_phi_5 (ctx : g_context_s) : Formula := Z3_mk_or (phi_5_disjuncts ctx)

/-- Disjunct list of `build_phi_6`: for every existing edge `(u, v)`
with `v` in component `j1` and `u` in component `j2`, and every
`i ∈ [0, N)`, the variable `X_(u, v, i)`. -/
def phi_6_disjuncts (ctx : g_context_s) (j1 j2 : Nat) : List Formula :=
  (List.range ctx.n).flatMap fun u =>
    (List.range' (u + 1) (ctx.n - (u + 1))).flatMap fun v =>
      if ctx.graph.isEdge u v && ctx.graph.isNodeInComponent v j1 &&
         ctx.graph.isNodeInComponent u j2 then
        (List.range ctx.N).map fun i => Formula.var (X_ u v i)
      else []

/-- `build_phi_6`: the disjunction, or `Z3_mk_false` when no disjunct
was produced (`0 == pos`). -/
def build_phi_6 (ctx : g_context_s) (j1 j2 : Nat) : Formula :=
  if (phi_6_disjuncts ctx j1 j2).isEmpty then Z3_mk_false
  else Z3_mk_or (phi_6_disjuncts ctx j1 j2)

/-- Clause list of `build_phi_7`: for `h ∈ [1, N)`,
`¬L_(j1, h) ∨ L_(j2, h-1)`. -/
def phi_7_clauses (ctx : g_context_s) (j1 j2 : Nat) : List Formula :=
  (List.range' 1 (ctx.N - 1)).map fun h =>
    Z3_mk_or [Formula.not (Formula.var (L_ j1 h)), Formula.var (L_ j2 (h - 1))]

/-- `build_phi_7`. -/
def build_phi_7 (ctx : g_context_s) (j1 j2 : Nat) : Formula :=
  Z3_mk_and (phi_7_clauses ctx j1 j2)

/-- Clause list of `build_phi_8`: for every ordered pair of distinct
components `(j1, j2)`,
`(¬P(j1,j2) ∨ φ6(j1,j2)) ∧ (¬P(j1,j2) ∨ φ7(j1,j2))`. -/
def phi_8_clauses (ctx : g_context_s) : List Formula :=
  (List.range ctx.C_H).flatMap fun j1 =>
    (List.range ctx.C_H).flatMap fun j2 =>
      if j1 ≠ j2 then
        [Z3_mk_and
          [Z3_mk_or [Formula.not (Formula.var (P_ j1 j2)), build_phi_6 ctx j1 j2],
           Z3_mk_or [Formula.not (Formula.var (P_ j1 j2)), build_phi_7 ctx j1 j2]]]
      else []

/-- `build_phi_8`. -/
def build_phi_8 (ctx : g_context_s) : Formula := Z3_mk_and (phi_8_clauses ctx)

/-- `EdgeConReduction(z3_ctx, edgeGraph, cost)`: the conjunction of the
five top-level fragments. -/
def EdgeConReduction (edgeGraph : EdgeConGraph) (cost : Nat) : Formula :=
  let ctx := init_g_context edgeGraph cost
  Z3_mk_and [build_phi_2 ctx, build_phi_3 ctx, build_phi_4 ctx,
             build_phi_5 ctx, build_phi_8 ctx]

/-- The externally visible calls the decoder makes on the graph. -/
inductive DecodeEvent where
  | addTranslator (n1 n2 : Nat)
  | computesHomogeneousComponents
deriving DecidableEq, Repr

/-- `is_the_ith_translator`: the model value of the (canonicalized)
`X` variable of the edge. -/
def is_the_ith_translator (m : Var → Bool) (n1 n2 i : Nat) : Bool :=
  m (getVariableIsIthTranslator n1 n2 i)

/-- `getTranslatorSetFromModel` as the ordered trace of mutating calls
it performs on the graph: one `addTranslator n1 n2` per existing edge
`n1 < n2` and identity `i < N` whose `X` variable is true, then a final
`computesHomogeneousComponents`. -/
def getTranslatorSetFromModel (m : Var → Bool) (g : EdgeConGraph) : List DecodeEvent :=
  ((List.range g.numNodes).flatMap fun n1 =>
    (List.range' (n1 + 1) (g.numNodes - (n1 + 1))).flatMap fun n2 =>
      if g.isEdge n1 n2 then
        (List.range (g.numComponents - 1)).flatMap fun i =>
          if is_the_ith_translator m n1 n2 i then
            [DecodeEvent.addTranslator n1 n2]
          else []
      else [])
  ++ [DecodeEvent.computesHomogeneousComponents]

/-! ### A concrete instance used by counterexamples and witnesses

The path graph `0 - 1 - 2 - 3` with homogeneous components `{0}`, `{1}`,
`{2,3}` (`C_H = 3`, `N = 2`), the scenario of §8 of the spec. -/

/-- The 4-node path graph with components `{0}`, `{1}`, `{2, 3}`. -/
def pathGraph : EdgeConGraph where
  numNodes := 4
  numEdges := 3
  isEdge := fun u v =>
    (u == 0 && v == 1) || (u == 1 && v == 2) || (u == 2 && v == 3) ||
    (v == 0 && u == 1) || (v == 1 && u == 2) || (v == 2 && u == 3)
  numComponents := 3
  isNodeInComponent := fun node c =>
    (node == 0 && c == 0) || (node == 1 && c == 1) ||
    ((node == 2 || node == 3) && c == 2)

/-- A model keeping every component at level 0: translator 0 on edge
(0,1), translator 1 on edge (1,2), parents `P(1,0)` and `P(2,1)`, all
three components at level 0. -/
def m0 : Var → Bool := fun v =>
  decide (v ∈ [Var.X 0 1 0, Var.X 1 2 1, Var.P 1 0, Var.P 2 1,
               Var.L 0 0, Var.L 1 0, Var.L 2 0])

/-- The model `m0` with the out-of-range level variable `l_[1,2]`
additionally set true. -/
def m1 : Var → Bool := fun v =>
  decide (v ∈ [Var.X 0 1 0, Var.X 1 2 1, Var.P 1 0, Var.P 2 1,
               Var.L 0 0, Var.L 1 0, Var.L 2 0, Var.L 1 2])

example : Formula.eval m0 (EdgeConReduction pathGraph 1) = true := by decide
example : Formula.eval m1 (EdgeConReduction pathGraph 1) = true := by decide
example : Formula.eval m0 (EdgeConReduction pathGraph 2) = false := by decide

/-! ### Semantics of the Z3 constructors -/

theorem eval_Z3_mk_and (m : Var → Bool) (l : List Formula) :
    Formula.eval m (Z3_mk_and l) = l.all (Formula.eval m) := by
  induction l with
  | nil => rfl
  | cons f fs ih =>
    simp only [Z3_mk_and, List.foldr_cons, Formula.eval, List.all_cons]
    rw [← ih]; rfl

theorem eval_Z3_mk_or (m : Var → Bool) (l : List Formula) :
    Formula.eval m (Z3_mk_or l) = l.any (Formula.eval m) := by
  induction l with
  | nil => rfl
  | cons f fs ih =>
    simp only [Z3_mk_or, List.foldr_cons, Formula.eval, List.any_cons]
    rw [← ih]; rfl

theorem eval_Z3_mk_and_eq_true {m : Var → Bool} {l : List Formula} :
    Formula.eval m (Z3_mk_and l) = true ↔ ∀ f ∈ l, Formula.eval m f = true := by
  rw [eval_Z3_mk_and, List.all_eq_true]

theorem eval_Z3_mk_or_eq_true {m : Var → Bool} {l : List Formula} :
    Formula.eval m (Z3_mk_or l) = true ↔ ∃ f ∈ l, Formula.eval m f = true := by
  rw [eval_Z3_mk_or, List.any_eq_true]

theorem varsOf_Z3_mk_and (l : List Formula) :
    (Z3_mk_and l).varsOf = l.flatMap Formula.varsOf := by
  induction l with
  | nil => rfl
  | cons f fs ih =>
    simp only [Z3_mk_and, List.foldr_cons, List.flatMap_cons] at *
    simp only [Formula.varsOf, ih]

theorem varsOf_Z3_mk_or (l : List Formula) :
    (Z3_mk_or l).varsOf = l.flatMap Formula.varsOf := by
  induction l with
  | nil => rfl
  | cons f fs ih =>
    simp only [Z3_mk_or, List.foldr_cons, List.flatMap_cons] at *
    simp only [Formula.varsOf, ih]

theorem mem_edgeList {g : EdgeConGraph} {u v : Nat} :
    (u, v) ∈ edgeList g ↔ u < v ∧ v < g.numNodes ∧ g.isEdge u v = true := by
  simp only [edgeList, List.mem_flatMap, List.mem_range, List.mem_range'_1]
  constructor
  · rintro ⟨a, ha, b, ⟨hb1, hb2⟩, hif⟩
    by_cases he : g.isEdge a b = true
    · rw [if_pos he] at hif
      simp only [List.mem_singleton, Prod.mk.injEq] at hif
      obtain ⟨rfl, rfl⟩ := hif
      exact ⟨by omega, by omega, he⟩
    · rw [if_neg he] at hif
      exact absurd hif (List.not_mem_nil _)
  · rintro ⟨huv, hv, he⟩
    exact ⟨u, by omega, v, ⟨by omega, by omega⟩, by rw [if_pos he]; exact List.mem_singleton.mpr rfl⟩

/-! ### Claim theorems -/

/-- C9: endpoint canonicalization makes the `X` variable family
symmetric: `getVariableIsIthTranslator` produces the same variable (and
hence the same solver handle) for either order of its node arguments. -/
theorem getVariableIsIthTranslator_symm (n1 n2 i : Nat) :
    getVariableIsIthTranslator n1 n2 i = getVariableIsIthTranslator n2 n1 i := by
  unfold getVariableIsIthTranslator
  rcases Nat.lt_trichotomy n1 n2 with h | h | h
  · rw [if_pos h, if_neg (Nat.not_lt.mpr (Nat.le_of_lt h))]
  · subst h; rfl
  · rw [if_neg (Nat.not_lt.mpr (Nat.le_of_lt h)), if_pos h]

/-- C1 is refuted on the code: the model `m0` satisfies the full
reduction formula for `pathGraph` (components `{0}`, `{1}`, `{2,3}`,
so `N = 2`) with depth bound `k = 1`, yet no component is assigned a
level `≥ 1`: all three components sit at level 0 and their level-1
variables are false.  `build_phi_5` writes its disjunct as `L_(n, i)`
with `i` ranging over components and `n` over `[k, N)`, which swaps the
component/level arguments of the `L_` macro, so the disjunction does not
say what the spec (and the builder's own doc comment) claim. -/
theorem phi_5_depth_bound_not_enforced :
    Formula.eval m0 (EdgeConReduction pathGraph 1) = true ∧
    m0 (Var.L 0 1) = false ∧ m0 (Var.L 1 1) = false ∧ m0 (Var.L 2 1) = false ∧
    m0 (Var.L 0 0) = true ∧ m0 (Var.L 1 0) = true ∧ m0 (Var.L 2 0) = true := by
  decide

/-- C7: when `k ≥ N`, the inner level range of φ5 is empty, so its
disjunct list is empty, φ5 is the empty (false) disjunction, and the
top-level conjunction — which contains it — is false in every model. -/
theorem EdgeConReduction_unsat_of_k_ge_N (g : EdgeConGraph) (k : Nat)
    (hk : g.numComponents - 1 ≤ k) (m : Var → Bool) :
    Formula.eval m (EdgeConReduction g k) = false := by
  have h5 : phi_5_disjuncts (init_g_context g k) = [] := by
    unfold phi_5_disjuncts
    simp [init_g_context, Nat.sub_eq_zero_of_le hk]
  unfold EdgeConReduction build_phi_5
  simp [Z3_mk_and, Z3_mk_or, Formula.eval, h5]

/-- C7 witness: at `pathGraph` (`N = 2`) with `k = 2`, the formula
evaluates to false under the concrete model `m0`. -/
theorem EdgeConReduction_unsat_of_k_ge_N_witness :
    Formula.eval m0 (EdgeConReduction pathGraph 2) = false :=
  EdgeConReduction_unsat_of_k_ge_N pathGraph 2 (by decide) m0

/-- Every variable leaf of `build_phi_6` is an `X` variable. -/
theorem varsOf_build_phi_6_shape (ctx : g_context_s) (j1 j2 : Nat) (v : Var)
    (hv : v ∈ (build_phi_6 ctx j1 j2).varsOf) : ∃ a b i, v = Var.X a b i := by
  unfold build_phi_6 at hv
  split at hv
  · exact absurd hv (List.not_mem_nil _)
  · rw [varsOf_Z3_mk_or] at hv
    simp only [phi_6_disjuncts, List.mem_flatMap] at hv
    obtain ⟨f, ⟨u, _, w, _, hif⟩, hvf⟩ := hv
    split at hif
    · obtain ⟨i, _, rfl⟩ := List.mem_map.mp hif
      simp only [Formula.varsOf, List.mem_singleton] at hvf
      subst hvf
      unfold X_ getVariableIsIthTranslator
      split
      · exact ⟨u, w, i, rfl⟩
      · exact ⟨w, u, i, rfl⟩
    · exact absurd hif (List.not_mem_nil _)

/-- Every variable leaf of `build_phi_7` is an `L` variable. -/
theorem varsOf_build_phi_7_shape (ctx : g_context_s) (j1 j2 : Nat) (v : Var)
    (hv : v ∈ (build_phi_7 ctx j1 j2).varsOf) : ∃ a b, v = Var.L a b := by
  unfold build_phi_7 at hv
  rw [varsOf_Z3_mk_and] at hv
  simp only [phi_7_clauses, List.mem_flatMap] at hv
  obtain ⟨f, hf, hvf⟩ := hv
  obtain ⟨h, _, rfl⟩ := List.mem_map.mp hf
  simp only [Z3_mk_or, List.foldr_cons, List.foldr_nil, Formula.varsOf,
    List.append_nil, List.mem_append, List.mem_singleton] at hvf
  rcases hvf with rfl | rfl
  · exact ⟨j1, h, rfl⟩
  · exact ⟨j2, h - 1, rfl⟩

/-- C2 counterexample: on the path graph, `build_phi_8` creates the
Parent variable `p_[0,1]`, whose child argument is the root component 0. -/
theorem build_phi_8_creates_child_zero :
    Var.P 0 1 ∈ (build_phi_8 (init_g_context pathGraph 1)).varsOf := by decide

/-- C2 amended: every `getVariableParent` call made by the φ3 builders
has child argument in `[1, C_H)`; `build_phi_8`, however, calls
`getVariableParent` for every ordered pair of distinct components, so
its Parent variables only satisfy `child < C_H`, `parent < C_H` and
`child ≠ parent` — the child argument 0 does occur there. -/
theorem parent_var_child_ranges (g : EdgeConGraph) (cost : Nat) (c p : Nat) :
    (Var.P c p ∈ (build_phi_3 (init_g_context g cost)).varsOf →
      1 ≤ c ∧ c < g.numComponents) ∧
    (Var.P c p ∈ (build_phi_8 (init_g_context g cost)).varsOf →
      c < g.numComponents ∧ p < g.numComponents ∧ c ≠ p) := by
  set ctx := init_g_context g cost with hctx
  have hCH : ctx.C_H = g.numComponents := rfl
  constructor
  · intro hv
    unfold build_phi_3 at hv
    rw [varsOf_Z3_mk_and] at hv
    simp only [List.flatMap_cons, List.flatMap_nil, List.append_nil, List.mem_append] at hv
    rcases hv with hv | hv
    · unfold build_phi_3_1 at hv
      rw [varsOf_Z3_mk_and] at hv
      simp only [phi_3_1_clauses, List.mem_flatMap] at hv
      obtain ⟨f, hf, hvf⟩ := hv
      obtain ⟨j, hj, rfl⟩ := List.mem_map.mp hf
      rw [List.mem_range'_1] at hj
      rw [varsOf_Z3_mk_or] at hvf
      simp only [List.mem_flatMap] at hvf
      obtain ⟨f', hf', hvf'⟩ := hvf
      obtain ⟨j1, _, rfl⟩ := List.mem_map.mp hf'
      simp only [Formula.varsOf, P_, getVariableParent, List.mem_singleton] at hvf'
      cases hvf'
      omega
    · unfold build_phi_3_2 at hv
      rw [varsOf_Z3_mk_and] at hv
      simp only [phi_3_2_clauses, List.mem_flatMap] at hv
      obtain ⟨f, ⟨j, hj, j1, _, hif⟩, hvf⟩ := hv
      rw [List.mem_range'_1] at hj
      split at hif
      · obtain ⟨j2, _, hif2⟩ := List.mem_flatMap.mp hif
        split at hif2
        · rw [List.mem_singleton] at hif2
          subst hif2
          simp only [Z3_mk_or, List.foldr_cons, List.foldr_nil, Formula.varsOf,
            List.append_nil, List.mem_append, List.mem_singleton, P_,
            getVariableParent] at hvf
          rcases hvf with h | h <;> (cases h; omega)
        · exact absurd hif2 (List.not_mem_nil _)
      · exact absurd hif (List.not_mem_nil _)
  · intro hv
    unfold build_phi_8 at hv
    rw [varsOf_Z3_mk_and] at hv
    simp only [phi_8_clauses, List.mem_flatMap] at hv
    obtain ⟨f, ⟨j1, hj1, j2, hj2, hif⟩, hvf⟩ := hv
    rw [List.mem_range] at hj1
    rw [List.mem_range] at hj2
    split at hif
    · rw [List.mem_singleton] at hif
      subst hif
      simp only [Z3_mk_and, Z3_mk_or, List.foldr_cons, List.foldr_nil,
        Formula.varsOf, List.append_nil, List.mem_append, List.mem_singleton,
        P_, getVariableParent] at hvf
      rcases hvf with ((h | h) | (h | h))
      · cases h; omega
      · obtain ⟨a, b, i, heq⟩ := varsOf_build_phi_6_shape ctx j1 j2 _ h
        exact Var.noConfusion heq
      · cases h; omega
      · obtain ⟨a, b, heq⟩ := varsOf_build_phi_7_shape ctx j1 j2 _ h
        exact Var.noConfusion heq
    · exact absurd hif (List.not_mem_nil _)

/-- C2 amended witness: instantiating the range theorem at the path
graph for the Parent variable `p_[1,0]` created by φ3. -/
theorem parent_var_child_ranges_witness :
    1 ≤ 1 ∧ 1 < pathGraph.numComponents :=
  (parent_var_child_ranges pathGraph 1 1 0).1 (by decide)

/-- Splitting a satisfying model of the full reduction formula into the
eight conjunct builders. -/
theorem eval_parts {g : EdgeConGraph} {k : Nat} {m : Var → Bool}
    (hm : Formula.eval m (EdgeConReduction g k) = true) :
    Formula.eval m (build_phi_2_1 (init_g_context g k)) = true ∧
    Formula.eval m (build_phi_2_2 (init_g_context g k)) = true ∧
    Formula.eval m (build_phi_3_1 (init_g_context g k)) = true ∧
    Formula.eval m (build_phi_3_2 (init_g_context g k)) = true ∧
    Formula.eval m (build_phi_4_1 (init_g_context g k)) = true ∧
    Formula.eval m (build_phi_4_2 (init_g_context g k)) = true ∧
    Formula.eval m (build_phi_5 (init_g_context g k)) = true ∧
    Formula.eval m (build_phi_8 (init_g_context g k)) = true := by
  unfold EdgeConReduction build_phi_2 build_phi_3 build_phi_4 at hm
  simp only [Z3_mk_and, List.foldr_cons, List.foldr_nil, Formula.eval,
    Bool.and_eq_true, Bool.and_true] at hm
  exact ⟨hm.1.1, hm.1.2, hm.2.1.1, hm.2.1.2, hm.2.2.1.1, hm.2.2.1.2,
    hm.2.2.2.1, hm.2.2.2.2⟩

/-- The `X_` macro on an already canonical pair. -/
theorem X_eq_of_lt {a b : Nat} (h : a < b) (i : Nat) : X_ a b i = Var.X a b i := by
  unfold X_ getVariableIsIthTranslator
  rw [if_pos h]

/-- C4: for any model satisfying the reduction formula, the
translator-to-edge assignment encoded by the `X` variables is a partial
injective mapping: no identity `i < N` is true on two distinct existing
edges (φ2.1), and no existing edge carries two distinct identities
(φ2.2). -/
theorem translator_assignment_partial_injective (g : EdgeConGraph) (k : Nat)
    (m : Var → Bool) (hm : Formula.eval m (EdgeConReduction g k) = true) :
    (∀ i, i < g.numComponents - 1 → ∀ e ∈ edgeList g, ∀ f ∈ edgeList g, e ≠ f →
      ¬(m (Var.X e.1 e.2 i) = true ∧ m (Var.X f.1 f.2 i) = true)) ∧
    (∀ e ∈ edgeList g, ∀ i, i < g.numComponents - 1 → ∀ j, j < g.numComponents - 1 →
      i ≠ j → ¬(m (Var.X e.1 e.2 i) = true ∧ m (Var.X e.1 e.2 j) = true)) := by
  obtain ⟨h21, h22, -, -, -, -, -, -⟩ := eval_parts hm
  rw [build_phi_2_1, eval_Z3_mk_and_eq_true] at h21
  rw [build_phi_2_2, eval_Z3_mk_and_eq_true] at h22
  constructor
  · rintro i hi ⟨a, b⟩ he ⟨a2, b2⟩ hf hne ⟨hxe, hxf⟩
    have hab : a < b := (mem_edgeList.mp he).1
    have hab2 : a2 < b2 := (mem_edgeList.mp hf).1
    have hmem : Z3_mk_or [Formula.not (Formula.var (X_ a b i)),
        Formula.not (Formula.var (X_ a2 b2 i))] ∈
        phi_2_1_clauses (init_g_context g k) := by
      simp only [phi_2_1_clauses, init_g_context, List.mem_flatMap, List.mem_range,
        List.mem_map, List.mem_filter]
      refine ⟨i, hi, (a, b), he, (a2, b2), ⟨hf, ?_⟩, rfl⟩
      have hne2 : (a2, b2) ≠ (a, b) := fun hh => hne hh.symm
      have : ¬a2 = a ∨ ¬b2 = b := by
        by_cases h1 : a2 = a
        · exact Or.inr fun h2 => hne2 (by rw [h1, h2])
        · exact Or.inl h1
      simpa using this
    have hcl := h21 _ hmem
    rw [X_eq_of_lt hab, X_eq_of_lt hab2] at hcl
    simp only [Z3_mk_or, List.foldr_cons, List.foldr_nil, Formula.eval, hxe, hxf,
      Bool.not_true, Bool.or_false, Bool.false_or] at hcl
    exact Bool.noConfusion hcl
  · rintro ⟨a, b⟩ he i hi j hj hne ⟨hxi, hxj⟩
    have hab : a < b := (mem_edgeList.mp he).1
    have key : ∀ i1 j1, i1 < j1 → j1 < g.numComponents - 1 →
        m (Var.X a b i1) = true → m (Var.X a b j1) = true → False := by
      intro i1 j1 hlt hj1 hx1 hx2
      have hmem : Z3_mk_or [Formula.not (Formula.var (X_ a b i1)),
          Formula.not (Formula.var (X_ a b j1))] ∈
          phi_2_2_clauses (init_g_context g k) := by
        simp only [phi_2_2_clauses, init_g_context, List.mem_flatMap, List.mem_range,
          List.mem_map, List.mem_range'_1]
        exact ⟨(a, b), he, i1, by omega, j1, ⟨by omega, by omega⟩, rfl⟩
      have hcl := h22 _ hmem
      rw [X_eq_of_lt hab, X_eq_of_lt hab] at hcl
      simp only [Z3_mk_or, List.foldr_cons, List.foldr_nil, Formula.eval, hx1, hx2,
        Bool.not_true, Bool.or_false, Bool.false_or] at hcl
      exact Bool.noConfusion hcl
    rcases Nat.lt_or_ge i j with h | h
    · exact key i j h hj hxi hxj
    · exact key j i (by omega) hi hxj hxi

/-- C4 witness: the concrete satisfying model `m0` on the path graph. -/
theorem translator_assignment_partial_injective_witness :
    (∀ i, i < pathGraph.numComponents - 1 → ∀ e ∈ edgeList pathGraph,
      ∀ f ∈ edgeList pathGraph, e ≠ f →
      ¬(m0 (Var.X e.1 e.2 i) = true ∧ m0 (Var.X f.1 f.2 i) = true)) ∧
    (∀ e ∈ edgeList pathGraph, ∀ i, i < pathGraph.numComponents - 1 →
      ∀ j, j < pathGraph.numComponents - 1 → i ≠ j →
      ¬(m0 (Var.X e.1 e.2 i) = true ∧ m0 (Var.X e.1 e.2 j) = true)) :=
  translator_assignment_partial_injective pathGraph 1 m0 (by decide)

/-- C5: in any model satisfying the reduction formula, every non-root
component `j ∈ [1, C_H)` has exactly one component `j1 < C_H`, `j1 ≠ j`,
with `P(j, j1)` true: at least one by φ3.1, at most one by φ3.2. -/
theorem phi_3_exactly_one_parent (g : EdgeConGraph) (k : Nat) (m : Var → Bool)
    (hm : Formula.eval m (EdgeConReduction g k) = true)
    (j : Nat) (hj1 : 1 ≤ j) (hj2 : j < g.numComponents) :
    ∃! j1, j1 < g.numComponents ∧ j1 ≠ j ∧ m (Var.P j j1) = true := by
  obtain ⟨-, -, h31, h32, -, -, -, -⟩ := eval_parts hm
  rw [build_phi_3_1, eval_Z3_mk_and_eq_true] at h31
  rw [build_phi_3_2, eval_Z3_mk_and_eq_true] at h32
  have pair : ∀ a b, a < b → b < g.numComponents → a ≠ j → b ≠ j →
      m (Var.P j a) = true → m (Var.P j b) = true → False := by
    intro a b hab hb ha1 hb1 hpa hpb
    have hmem : Z3_mk_or [Formula.not (Formula.var (P_ j a)),
        Formula.not (Formula.var (P_ j b))] ∈
        phi_3_2_clauses (init_g_context g k) := by
      simp only [phi_3_2_clauses, init_g_context, List.mem_flatMap,
        List.mem_range, List.mem_range'_1]
      refine ⟨j, ⟨hj1, by omega⟩, a, by omega, ?_⟩
      rw [if_pos ha1]
      refine List.mem_flatMap.mpr ⟨b, by rw [List.mem_range'_1]; omega, ?_⟩
      rw [if_pos hb1]
      exact List.mem_singleton.mpr rfl
    have hcl := h32 _ hmem
    simp only [Z3_mk_or, List.foldr_cons, List.foldr_nil, Formula.eval, P_,
      getVariableParent, hpa, hpb, Bool.not_true, Bool.or_false,
      Bool.false_or] at hcl
    exact Bool.noConfusion hcl
  have hmem1 : Z3_mk_or (((List.range g.numComponents).filter
      (fun j1 => j ≠ j1)).map fun j1 => Formula.var (P_ j j1)) ∈
      phi_3_1_clauses (init_g_context g k) := by
    simp only [phi_3_1_clauses, init_g_context]
    exact List.mem_map.mpr ⟨j, by rw [List.mem_range'_1]; omega, rfl⟩
  have hcl := h31 _ hmem1
  rw [eval_Z3_mk_or_eq_true] at hcl
  obtain ⟨f, hf, hev⟩ := hcl
  obtain ⟨j1, hj1mem, rfl⟩ := List.mem_map.mp hf
  rw [List.mem_filter] at hj1mem
  obtain ⟨hj1r, hj1ne⟩ := hj1mem
  rw [List.mem_range] at hj1r
  have hne : j ≠ j1 := by simpa using hj1ne
  simp only [Formula.eval, P_, getVariableParent] at hev
  refine ⟨j1, ⟨hj1r, fun hh => hne hh.symm, hev⟩, ?_⟩
  rintro y ⟨hy1, hy2, hy3⟩
  by_contra hyne
  rcases Nat.lt_or_ge y j1 with hlt | hge
  · exact pair y j1 hlt hj1r hy2 (fun hh => hne hh.symm) hy3 hev
  · exact pair j1 y (by omega) hy1 (fun hh => hne hh.symm) hy2 hev hy3

/-- C5 witness: component 2 of the path graph has exactly one parent in
the concrete satisfying model `m0` (namely component 1). -/
theorem phi_3_exactly_one_parent_witness :
    ∃! j1, j1 < pathGraph.numComponents ∧ j1 ≠ 2 ∧ m0 (Var.P 2 j1) = true :=
  phi_3_exactly_one_parent pathGraph 1 m0 (by decide) 2 (by decide) (by decide)

/-- C3 counterexample: in the satisfying model `m0` of the path-graph
reduction, `P(2,1)` is true while both components 2 and 1 sit at level 0
(their only true level variables in `[0, N)` are at level 0), so
`level(j1) = level(j2) - 1` fails: `0 ≠ 0 - 1` over the integers.
φ7 constrains the converse direction (`level(j2) = level(j1) - 1`) and
only for `level(j1) ≥ 1`. -/
theorem phi_8_level_equation_fails :
    Formula.eval m0 (EdgeConReduction pathGraph 1) = true ∧
    m0 (Var.P 2 1) = true ∧
    m0 (Var.L 2 0) = true ∧ m0 (Var.L 1 0) = true ∧
    m0 (Var.L 2 1) = false ∧ m0 (Var.L 1 1) = false ∧
    ¬((0 : Int) = 0 - 1) := by decide

/-- C3 amended: in any satisfying model, if `P(j1, j2)` is true then
(a) some existing edge `(u, v)` with `v` in component `j1` and `u` in
component `j2` carries some translator identity `i < N`, and (b) for
every level `h ∈ [1, N)`, if `j1` is at level `h` then `j2` is at level
`h - 1` (φ7 constrains the parent to be one level shallower than the
child and says nothing when `j1` is at level 0); and (c) when no
existing edge crosses from `j2` into `j1`, the φ6 fragment is the
constant false, forcing `P(j1, j2)` false. -/
theorem phi_8_parent_linkage (g : EdgeConGraph) (k : Nat) (m : Var → Bool)
    (hm : Formula.eval m (EdgeConReduction g k) = true)
    (j1 j2 : Nat) (hj1 : j1 < g.numComponents) (hj2 : j2 < g.numComponents)
    (hne : j1 ≠ j2) :
    (m (Var.P j1 j2) = true →
      (∃ u v, u < v ∧ v < g.numNodes ∧ g.isEdge u v = true ∧
        g.isNodeInComponent v j1 = true ∧ g.isNodeInComponent u j2 = true ∧
        ∃ i, i < g.numComponents - 1 ∧ m (Var.X u v i) = true) ∧
      (∀ h, 1 ≤ h → h < g.numComponents - 1 → m (Var.L j1 h) = true →
        m (Var.L j2 (h - 1)) = true)) ∧
    ((∀ u v, u < v → v < g.numNodes → g.isEdge u v = true →
        ¬(g.isNodeInComponent v j1 = true ∧ g.isNodeInComponent u j2 = true)) →
      m (Var.P j1 j2) = false) := by
  obtain ⟨-, -, -, -, -, -, -, h8⟩ := eval_parts hm
  rw [build_phi_8, eval_Z3_mk_and_eq_true] at h8
  have hmem : Z3_mk_and
      [Z3_mk_or [Formula.not (Formula.var (P_ j1 j2)),
                 build_phi_6 (init_g_context g k) j1 j2],
       Z3_mk_or [Formula.not (Formula.var (P_ j1 j2)),
                 build_phi_7 (init_g_context g k) j1 j2]] ∈
      phi_8_clauses (init_g_context g k) := by
    simp only [phi_8_clauses, init_g_context, List.mem_flatMap, List.mem_range]
    refine ⟨j1, hj1, j2, hj2, ?_⟩
    rw [if_pos hne]
    exact List.mem_singleton.mpr rfl
  have hcl := h8 _ hmem
  simp only [Z3_mk_and, Z3_mk_or, List.foldr_cons, List.foldr_nil, Formula.eval,
    Bool.and_eq_true, Bool.and_true, Bool.or_eq_true, Bool.or_false] at hcl
  obtain ⟨hor6, hor7⟩ := hcl
  constructor
  · intro hp
    have hp6 : Formula.eval m (build_phi_6 (init_g_context g k) j1 j2) = true := by
      rcases hor6 with h | h
      · rw [P_, getVariableParent, hp] at h
        exact Bool.noConfusion h
      · exact h
    have hp7 : Formula.eval m (build_phi_7 (init_g_context g k) j1 j2) = true := by
      rcases hor7 with h | h
      · rw [P_, getVariableParent, hp] at h
        exact Bool.noConfusion h
      · exact h
    constructor
    · unfold build_phi_6 at hp6
      split at hp6
      · exact Bool.noConfusion hp6
      · rw [eval_Z3_mk_or_eq_true] at hp6
        obtain ⟨f, hf, hev⟩ := hp6
        simp only [phi_6_disjuncts, init_g_context, List.mem_flatMap,
          List.mem_range, List.mem_range'_1] at hf
        obtain ⟨u, hu, w, hw, hif⟩ := hf
        split at hif
        · next hcond =>
          simp only [Bool.and_eq_true] at hcond
          obtain ⟨i, hi, rfl⟩ := List.mem_map.mp hif
          rw [List.mem_range] at hi
          simp only [Formula.eval] at hev
          rw [X_eq_of_lt (by omega : u < w)] at hev
          exact ⟨u, w, by omega, by omega, hcond.1.1, hcond.1.2, hcond.2,
            i, hi, hev⟩
        · exact absurd hif (List.not_mem_nil _)
    · intro h h1 hN hL
      unfold build_phi_7 at hp7
      rw [eval_Z3_mk_and_eq_true] at hp7
      have hmem7 : Z3_mk_or [Formula.not (Formula.var (L_ j1 h)),
          Formula.var (L_ j2 (h - 1))] ∈
          phi_7_clauses (init_g_context g k) j1 j2 := by
        simp only [phi_7_clauses, init_g_context]
        exact List.mem_map.mpr ⟨h, by rw [List.mem_range'_1]; omega, rfl⟩
      have hcl7 := hp7 _ hmem7
      simp only [Z3_mk_or, List.foldr_cons, List.foldr_nil, Formula.eval, L_,
        getVariableLevelInSpanningTree, hL, Bool.not_true, Bool.or_false,
        Bool.false_or] at hcl7
      exact hcl7
  · intro hno
    have hempty : phi_6_disjuncts (init_g_context g k) j1 j2 = [] := by
      unfold phi_6_disjuncts
      rw [List.flatMap_eq_nil_iff]
      intro u hu
      rw [List.flatMap_eq_nil_iff]
      intro w hw
      rw [List.mem_range] at hu
      rw [List.mem_range'_1] at hw
      have hcond : (((init_g_context g k).graph.isEdge u w &&
          (init_g_context g k).graph.isNodeInComponent w j1) &&
          (init_g_context g k).graph.isNodeInComponent u j2) = false := by
        by_cases he : g.isEdge u w = true
        · by_cases hc1 : g.isNodeInComponent w j1 = true
          · by_cases hc2 : g.isNodeInComponent u j2 = true
            · exact absurd ⟨hc1, hc2⟩
                (hno u w (by omega) (by
                  simp only [init_g_context] at hu hw; omega) he)
            · simp only [init_g_context, Bool.and_eq_false_iff]
              right
              exact Bool.not_eq_true _ ▸ hc2
          · simp only [init_g_context, Bool.and_eq_false_iff]
            left
            right
            exact Bool.not_eq_true _ ▸ hc1
        · simp only [init_g_context, Bool.and_eq_false_iff]
          left
          left
          exact Bool.not_eq_true _ ▸ he
      rw [hcond]
      simp
    rcases hor6 with h | h
    · rw [P_, getVariableParent] at h
      simp only [Bool.not_eq_true'] at h
      exact h
    · unfold build_phi_6 at h
      rw [hempty] at h
      simp only [List.isEmpty_nil, if_true, Z3_mk_false, Formula.eval] at h
      exact Bool.noConfusion h

/-- C3 amended witness: instantiating the linkage theorem at the path
graph, model `m0`, child component 2, parent component 1 (where
`P(2,1)` holds): edge `(1,2)` crosses and carries translator 1. -/
theorem phi_8_parent_linkage_witness :
    (∃ u v, u < v ∧ v < pathGraph.numNodes ∧ pathGraph.isEdge u v = true ∧
      pathGraph.isNodeInComponent v 2 = true ∧
      pathGraph.isNodeInComponent u 1 = true ∧
      ∃ i, i < pathGraph.numComponents - 1 ∧ m0 (Var.X u v i) = true) ∧
    (∀ h, 1 ≤ h → h < pathGraph.numComponents - 1 → m0 (Var.L 2 h) = true →
      m0 (Var.L 1 (h - 1)) = true) :=
  (phi_8_parent_linkage pathGraph 1 m0 (by decide) 2 1 (by decide) (by decide)
    (by decide)).1 (by decide)

/-- C6 is refuted on the code: `m1` satisfies the full reduction formula
on the path graph (`N = 2`, `k = 1`), yet component 1 has two Level
variables that the reduction created both set true: `l_[1,0]` (level 0,
created by φ4) and `l_[1,2]` (level `2 = N`, created only by the swapped
φ5 disjuncts and constrained by nothing).  In particular the second true
level does not lie in `[0, N)`. -/
theorem phi_4_extra_level_var_unconstrained :
    Formula.eval m1 (EdgeConReduction pathGraph 1) = true ∧
    Var.L 1 0 ∈ (EdgeConReduction pathGraph 1).varsOf ∧
    Var.L 1 2 ∈ (EdgeConReduction pathGraph 1).varsOf ∧
    m1 (Var.L 1 0) = true ∧ m1 (Var.L 1 2) = true ∧
    ¬(2 < pathGraph.numComponents - 1) := by decide

/-- Summing a non-negative function over a duplicate-free list in which
at most the element `x` contributes. -/
theorem sum_map_eq_single (l : List Nat) (f : Nat → Nat) (x : Nat)
    (hnd : l.Nodup) (h : ∀ y ∈ l, y ≠ x → f y = 0) :
    (l.map f).sum = if x ∈ l then f x else 0 := by
  induction l with
  | nil => simp
  | cons a as ih =>
    rw [List.nodup_cons] at hnd
    obtain ⟨hna, hnd2⟩ := hnd
    rw [List.map_cons, List.sum_cons]
    by_cases hax : a = x
    · subst hax
      have hz : (as.map f).sum = 0 := by
        apply List.sum_eq_zero
        intro z hz
        obtain ⟨y, hy, rfl⟩ := List.mem_map.mp hz
        exact h y (List.mem_cons_of_mem _ hy) (fun hyx => hna (hyx ▸ hy))
      rw [hz, if_pos (List.mem_cons_self _ _), Nat.add_zero]
    · rw [h a (List.mem_cons_self _ _) hax, Nat.zero_add,
        ih hnd2 (fun y hy hyx => h y (List.mem_cons_of_mem _ hy) hyx)]
      by_cases hxas : x ∈ as
      · rw [if_pos hxas, if_pos (List.mem_cons_of_mem _ hxas)]
      · rw [if_neg hxas, if_neg (fun hmem =>
          (List.mem_cons.mp hmem).elim (fun hxa => hax hxa.symm) hxas)]

/-- A guarded-singleton flat map is a replicate of length the filter
count. -/
theorem flatMap_ite_singleton {α β : Type} (l : List α) (p : α → Bool) (b : β) :
    (l.flatMap fun x => if p x then [b] else []) =
      List.replicate (l.filter p).length b := by
  induction l with
  | nil => rfl
  | cons a as ih =>
    by_cases h : p a
    · simp only [List.flatMap_cons, h, if_true, List.filter_cons, ih,
        List.length_cons, List.replicate_succ, List.singleton_append]
    · simp only [List.flatMap_cons, h, if_false, List.filter_cons, ih,
        Bool.false_eq_true, List.nil_append]

/-- C8: the decoder's call trace.  `addTranslator(g, u, v)` is emitted
exactly once per pair `u < v` that is an existing edge and per identity
`i < N` whose `X` variable is true in the model, and
`computesHomogeneousComponents` is called exactly once, as the last call
(after all edges are scanned). -/
theorem getTranslatorSetFromModel_trace (m : Var → Bool) (g : EdgeConGraph) :
    (∀ u v : Nat,
      (getTranslatorSetFromModel m g).count (DecodeEvent.addTranslator u v) =
        if u < v ∧ v < g.numNodes ∧ g.isEdge u v = true then
          ((List.range (g.numComponents - 1)).filter fun i =>
            is_the_ith_translator m u v i).length
        else 0) ∧
    (getTranslatorSetFromModel m g).count
      DecodeEvent.computesHomogeneousComponents = 1 ∧
    (getTranslatorSetFromModel m g).getLast? =
      some DecodeEvent.computesHomogeneousComponents := by
  have hTdef : getTranslatorSetFromModel m g =
      ((List.range g.numNodes).flatMap fun n1 =>
        (List.range' (n1 + 1) (g.numNodes - (n1 + 1))).flatMap fun n2 =>
          if g.isEdge n1 n2 then
            (List.range (g.numComponents - 1)).flatMap fun i =>
              if is_the_ith_translator m n1 n2 i then
                [DecodeEvent.addTranslator n1 n2]
              else []
          else [])
      ++ [DecodeEvent.computesHomogeneousComponents] := rfl
  refine ⟨?_, ?_, ?_⟩
  · intro u v
    rw [hTdef, List.count_append]
    have hlast : ([DecodeEvent.computesHomogeneousComponents].count
        (DecodeEvent.addTranslator u v)) = 0 := by
      rw [List.count_eq_zero]
      intro h
      rw [List.mem_singleton] at h
      exact DecodeEvent.noConfusion h
    rw [hlast, Nat.add_zero]
    have step1 : ((List.range g.numNodes).flatMap fun n1 =>
        (List.range' (n1 + 1) (g.numNodes - (n1 + 1))).flatMap fun n2 =>
          if g.isEdge n1 n2 then
            (List.range (g.numComponents - 1)).flatMap fun i =>
              if is_the_ith_translator m n1 n2 i then
                [DecodeEvent.addTranslator n1 n2]
              else []
          else []).count (DecodeEvent.addTranslator u v) =
        if u ∈ List.range g.numNodes then
          ((List.range' (u + 1) (g.numNodes - (u + 1))).flatMap fun n2 =>
            if g.isEdge u n2 then
              (List.range (g.numComponents - 1)).flatMap fun i =>
                if is_the_ith_translator m u n2 i then
                  [DecodeEvent.addTranslator u n2]
                else []
            else []).count (DecodeEvent.addTranslator u v)
        else 0 := by
      rw [List.count_flatMap]
      apply sum_map_eq_single _ _ _ (List.nodup_range _)
      intro y hy hyu
      simp only [Function.comp_apply]
      rw [List.count_eq_zero]
      intro hmem
      obtain ⟨n2, -, hmem2⟩ := List.mem_flatMap.mp hmem
      split at hmem2
      · obtain ⟨i, -, hmem3⟩ := List.mem_flatMap.mp hmem2
        split at hmem3
        · rw [List.mem_singleton] at hmem3
          injection hmem3 with h1 h2
          exact hyu h1.symm
        · exact absurd hmem3 (List.not_mem_nil _)
      · exact absurd hmem2 (List.not_mem_nil _)
    have step2 : ((List.range' (u + 1) (g.numNodes - (u + 1))).flatMap fun n2 =>
        if g.isEdge u n2 then
          (List.range (g.numComponents - 1)).flatMap fun i =>
            if is_the_ith_translator m u n2 i then
              [DecodeEvent.addTranslator u n2]
            else []
        else []).count (DecodeEvent.addTranslator u v) =
        if v ∈ List.range' (u + 1) (g.numNodes - (u + 1)) then
          (if g.isEdge u v then
            (List.range (g.numComponents - 1)).flatMap fun i =>
              if is_the_ith_translator m u v i then
                [DecodeEvent.addTranslator u v]
              else []
          else []).count (DecodeEvent.addTranslator u v)
        else 0 := by
      rw [List.count_flatMap]
      apply sum_map_eq_single _ _ _ (List.nodup_range' ..)
      intro y hy hyv
      simp only [Function.comp_apply]
      rw [List.count_eq_zero]
      intro hmem
      split at hmem
      · obtain ⟨i, -, hmem3⟩ := List.mem_flatMap.mp hmem
        split at hmem3
        · rw [List.mem_singleton] at hmem3
          injection hmem3 with h1 h2
          exact hyv h2.symm
        · exact absurd hmem3 (List.not_mem_nil _)
      · exact absurd hmem (List.not_mem_nil _)
    have step3 : (if g.isEdge u v then
        (List.range (g.numComponents - 1)).flatMap fun i =>
          if is_the_ith_translator m u v i then
            [DecodeEvent.addTranslator u v]
          else []
        else []).count (DecodeEvent.addTranslator u v) =
        if g.isEdge u v = true then
          ((List.range (g.numComponents - 1)).filter fun i =>
            is_the_ith_translator m u v i).length
        else 0 := by
      split
      · rw [flatMap_ite_singleton, List.count_replicate]
        simp
      · rfl
    rw [step1]
    by_cases hu : u ∈ List.range g.numNodes
    · rw [if_pos hu, step2]
      rw [List.mem_range] at hu
      by_cases hv : v ∈ List.range' (u + 1) (g.numNodes - (u + 1))
      · rw [if_pos hv, step3]
        rw [List.mem_range'_1] at hv
        by_cases hE : g.isEdge u v = true
        · rw [if_pos hE, if_pos ⟨by omega, by omega, hE⟩]
        · rw [if_neg hE, if_neg (fun hc => hE hc.2.2)]
      · rw [if_neg hv]
        rw [List.mem_range'_1] at hv
        rw [if_neg (fun hc => hv ⟨by omega, by omega⟩)]
    · rw [if_neg hu]
      rw [List.mem_range] at hu
      rw [if_neg (fun hc => hu (by omega))]
  · rw [hTdef, List.count_append]
    have h0 : ((List.range g.numNodes).flatMap fun n1 =>
        (List.range' (n1 + 1) (g.numNodes - (n1 + 1))).flatMap fun n2 =>
          if g.isEdge n1 n2 then
            (List.range (g.numComponents - 1)).flatMap fun i =>
              if is_the_ith_translator m n1 n2 i then
                [DecodeEvent.addTranslator n1 n2]
              else []
          else []).count DecodeEvent.computesHomogeneousComponents = 0 := by
      rw [List.count_eq_zero]
      intro hmem
      obtain ⟨n1, -, hmem1⟩ := List.mem_flatMap.mp hmem
      obtain ⟨n2, -, hmem2⟩ := List.mem_flatMap.mp hmem1
      split at hmem2
      · obtain ⟨i, -, hmem3⟩ := List.mem_flatMap.mp hmem2
        split at hmem3
        · rw [List.mem_singleton] at hmem3
          exact DecodeEvent.noConfusion hmem3
        · exact absurd hmem3 (List.not_mem_nil _)
      · exact absurd hmem2 (List.not_mem_nil _)
    rw [h0]
    rfl
  · rw [hTdef, List.getLast?_concat]

/-- Bounding a sum by a uniform bound on the summands. -/
theorem sum_map_le {α : Type} (l : List α) (f : α → Nat) (c : Nat)
    (h : ∀ x ∈ l, f x ≤ c) : (l.map f).sum ≤ l.length * c := by
  induction l with
  | nil => simp
  | cons a as ih =>
    rw [List.map_cons, List.sum_cons, List.length_cons]
    have h1 := h a (List.mem_cons_self _ _)
    have h2 := ih (fun x hx => h x (List.mem_cons_of_mem _ hx))
    have h3 : (as.length + 1) * c = as.length * c + c := by ring
    omega

/-- Adding one to every summand adds the length. -/
theorem sum_map_add_one (l : List Nat) (f : Nat → Nat) :
    (l.map fun i => f i + 1).sum = (l.map f).sum + l.length := by
  induction l with
  | nil => rfl
  | cons a as ih =>
    rw [List.map_cons, List.sum_cons, List.map_cons, List.sum_cons,
      List.length_cons, ih]
    omega

/-- The triangular count `Σ_{i<N} (N - (i+1))` is at most `N*N/2` (the
exact value is `N*(N-1)/2`). -/
theorem sum_range_sub_le (N : Nat) :
    ((List.range N).map (fun i => N - (i + 1))).sum ≤ N * N / 2 := by
  induction N with
  | zero => simp
  | succ n ih =>
    have hstep : ((List.range (n + 1)).map (fun i => n + 1 - (i + 1))).sum =
        ((List.range n).map (fun i => n - (i + 1))).sum + n := by
      rw [List.range_succ, List.map_append, List.sum_append]
      have hlast : ([n].map (fun i => n + 1 - (i + 1))).sum = 0 := by simp
      rw [hlast, Nat.add_zero]
      have hcong : (List.range n).map (fun i => n + 1 - (i + 1)) =
          (List.range n).map (fun i => (n - (i + 1)) + 1) := by
        apply List.map_congr_left
        intro i hi
        rw [List.mem_range] at hi
        omega
      rw [hcong, sum_map_add_one, List.length_range]
    rw [hstep]
    have h2 : (n + 1) * (n + 1) = n * n + 2 * n + 1 := by ring
    omega

/-- A doubly indexed loop `for i < N, for j in (i, N)` writes at most
`N*N/2` entries. -/
theorem length_flatMap_triangle {β : Type} (N : Nat) (F : Nat → Nat → β) :
    ((List.range N).flatMap fun i =>
      (List.range' (i + 1) (N - (i + 1))).map (F i)).length ≤ N * N / 2 := by
  rw [List.length_flatMap]
  have hcong : List.map (List.length ∘ fun i =>
      (List.range' (i + 1) (N - (i + 1))).map (F i)) (List.range N) =
      List.map (fun i => N - (i + 1)) (List.range N) := by
    apply List.map_congr_left
    intro i hi
    simp [List.length_map, List.length_range']
  rw [hcong]
  exact sum_range_sub_le N

/-- C10: on every graph whose `numEdges` field agrees with the number of
edge pairs its `isEdge` relation admits, with `m ≥ 1` and `C_H ≥ 2`, the
number of clauses each builder writes is at most the declared size of
its local clause array: `N*(m*m-1)` for φ2.1, `m*(N*N/2)` for φ2.2,
`(C_H-1)³` for φ3.2 and `C_H*(N*N/2)` for φ4.2. -/
theorem clause_buffers_within_bounds (g : EdgeConGraph) (cost : Nat)
    (hwf : g.numEdges = (edgeList g).length)
    (hm : 1 ≤ g.numEdges) (hC : 2 ≤ g.numComponents) :
    (phi_2_1_clauses (init_g_context g cost)).length ≤
      (g.numComponents - 1) * (g.numEdges * g.numEdges - 1) ∧
    (phi_2_2_clauses (init_g_context g cost)).length ≤
      g.numEdges * ((g.numComponents - 1) * (g.numComponents - 1) / 2) ∧
    (phi_3_2_clauses (init_g_context g cost)).length ≤
      (g.numComponents - 1) * (g.numComponents - 1) * (g.numComponents - 1) ∧
    (phi_4_2_clauses (init_g_context g cost)).length ≤
      g.numComponents * ((g.numComponents - 1) * (g.numComponents - 1) / 2) := by
  refine ⟨?_, ?_, ?_, ?_⟩
  · unfold phi_2_1_clauses
    simp only [init_g_context]
    rw [List.length_flatMap]
    apply le_trans
      (sum_map_le _ _ (g.numEdges * (g.numEdges - 1)) ?_)
    · rw [List.length_range]
      apply Nat.mul_le_mul (Nat.le_refl _)
      have h1 : g.numEdges * (g.numEdges - 1) + g.numEdges =
          g.numEdges * g.numEdges := by
        cases g.numEdges with
        | zero => simp
        | succ s =>
          rw [Nat.succ_sub_one]
          ring
      omega
    · intro i hi
      simp only [Function.comp_apply]
      rw [List.length_flatMap]
      apply le_trans (sum_map_le _ _ (g.numEdges - 1) ?_)
      · rw [← hwf]
      · intro e he
        simp only [Function.comp_apply]
        rw [List.length_map]
        have hlt : ((edgeList g).filter (fun f => f ≠ e)).length <
            (edgeList g).length :=
          List.length_filter_lt_length_iff_exists.mpr ⟨e, he, by simp⟩
        have hlen : (edgeList g).length = g.numEdges := hwf.symm
        omega
  · unfold phi_2_2_clauses
    simp only [init_g_context]
    rw [List.length_flatMap]
    apply le_trans
      (sum_map_le _ _ ((g.numComponents - 1) * (g.numComponents - 1) / 2) ?_)
    · rw [← hwf]
    · intro e he
      simp only [Function.comp_apply]
      exact length_flatMap_triangle (g.numComponents - 1) _
  · unfold phi_3_2_clauses
    simp only [init_g_context]
    rw [List.length_flatMap]
    apply le_trans
      (sum_map_le _ _ ((g.numComponents - 1) * (g.numComponents - 1)) ?_)
    · rw [List.length_range', Nat.mul_assoc]
    · intro j hj
      simp only [Function.comp_apply]
      rw [List.length_flatMap]
      apply le_trans (sum_map_le _ _ (g.numComponents - 1) ?_)
      · rw [List.length_range]
      · intro j1 hj1
        simp only [Function.comp_apply]
        split
        · rw [List.length_flatMap]
          apply le_trans (sum_map_le _ _ 1 ?_)
          · rw [List.length_range', Nat.mul_one]
            omega
          · intro j2 hj2
            simp only [Function.comp_apply]
            split
            · simp
            · simp
        · simp
  · unfold phi_4_2_clauses
    simp only [init_g_context]
    rw [List.length_flatMap]
    apply le_trans
      (sum_map_le _ _ ((g.numComponents - 1) * (g.numComponents - 1) / 2) ?_)
    · rw [List.length_range]
    · intro i hi
      simp only [Function.comp_apply]
      exact length_flatMap_triangle (g.numComponents - 1) _

/-- C10 witness: the bounds instantiated on the path graph. -/
theorem clause_buffers_within_bounds_witness :
    (phi_2_1_clauses (init_g_context pathGraph 1)).length ≤
      (pathGraph.numComponents - 1) * (pathGraph.numEdges * pathGraph.numEdges - 1) ∧
    (phi_2_2_clauses (init_g_context pathGraph 1)).length ≤
      pathGraph.numEdges *
        ((pathGraph.numComponents - 1) * (pathGraph.numComponents - 1) / 2) ∧
    (phi_3_2_clauses (init_g_context pathGraph 1)).length ≤
      (pathGraph.numComponents - 1) * (pathGraph.numComponents - 1) *
        (pathGraph.numComponents - 1) ∧
    (phi_4_2_clauses (init_g_context pathGraph 1)).length ≤
      pathGraph.numComponents *
        ((pathGraph.numComponents - 1) * (pathGraph.numComponents - 1) / 2) :=
  clause_buffers_within_bounds pathGraph 1 (by decide) (by decide) (by decide)
